import Mathlib

/-!  Formal model of `tensorflow_probability/python/distributions/joint_distribution_named.py`.

The Python module resolves a named collection of distribution-making functions
into a dependency-respecting evaluation order together with a positional-offset
encoding (`_depth`, `_best_order`), builds per-position invocation wrappers
(`_make` inside `_prob_chain_rule_flatten`), and converts between named
structures and positional tuples (`_flatten`, `_unflatten`).

Conventions of the shallow embedding:
* a Python `dict` is an insertion-ordered association list with distinct keys;
* a `None`-or-tuple dependency declaration is an `Option (List String)`;
* code that can raise (`KeyError` on a missing name, unbounded recursion on a
  cyclic graph, `ValueError` when unpacking an empty resolved tuple,
  `AttributeError` on a missing record field) is `Option`-valued, with `none`
  standing for the raised exception;
* Python's `sorted` is a stable sort; it is modelled by a stable insertion
  sort, which is extensionally equal to every stable sort for a fixed key;
* the unbounded mutual recursion of `_explore` is modelled with a fuel
  parameter chosen large enough for every run that terminates in Python.
-/

namespace JDN

universe u v

variable {α : Type u} {β : Type v}

/-- Dependency declaration of one producer: `none` models a ready-made
distribution instance (`is_distribution_instance` holds), `some args` the
tuple of required argument names of a callable maker. -/
abbrev DepSpec := Option (List String)

/-- A Python `dict` mapping producer names to dependency declarations, kept
in insertion order. -/
abbrev Graph := List (String × DepSpec)

/-- One resolved tuple entry of `_best_order`: the producer name together
with the second component the Python code stores there (`None`, the empty
tuple, or the offsets list mixing parent names and `'_'` placeholders). -/
abbrev Entry := String × DepSpec

/-- Python `dict` lookup (`d[k]` / `d.get(k)`): the first entry carrying the
key, `none` when the key is absent. -/
def dget (k : String) : List (String × β) → Option β
  | [] => none
  | kv :: rest => if kv.1 = k then some kv.2 else dget k rest

/-- Index of the first occurrence of a string in a list; the length of the
list when the string does not occur. -/
def idxOf (nm : String) : List String → Nat
  | [] => 0
  | s :: rest => if s = nm then 0 else idxOf nm rest + 1

/-- Evaluate an option-valued function over a list, failing when any element
fails (a Python comprehension in which evaluating an element raises). -/
def omapM (f : α → Option β) : List α → Option (List β)
  | [] => some []
  | a :: rest =>
    match f a, omapM f rest with
    | some b, some bs => some (b :: bs)
    | _, _ => none

/-- Insert an element into a list so that strictly smaller keys stay in
front and the element lands before every key that is not smaller: the
insertion step of a stable ascending sort. -/
def insertKey (key : α → Int) (a : α) : List α → List α
  | [] => [a]
  | b :: bs => if key a ≤ key b then a :: b :: bs else b :: insertKey key a bs

/-- Python's `sorted(xs, key=key)`: stable, ascending in the key. -/
def pySorted (key : α → Int) : List α → List α
  | [] => []
  | a :: rest => insertKey key a (pySorted key rest)

/-- Python's `sorted(xs, key=key, reverse=True)`: stable, descending in the
key, realised by the ascending stable sort on the negated key. -/
def pySortedDesc (key : α → Int) (xs : List α) : List α :=
  pySorted (fun a => -key a) xs

/-- The recursion of `_depth._explore`: number of edges on the longest path
from a node to a root; `0` for a node whose dependency declaration is `None`
or the empty tuple, otherwise `1 + max([-1] + [depth(parent), ...])`.  A
parent name absent from the graph is the Python `KeyError`; a cyclic graph,
which recurses forever in Python, exhausts the fuel.  The memoisation in the
Python code caches values of this same recursion and does not change them. -/
def depthExplore (g : Graph) : Nat → String → Option Int
  | 0, _ => none
  | fuel + 1, name =>
    match dget name g with
    | none => none
    | some none => some 0
    | some (some []) => some 0
    | some (some (p :: rest)) =>
      (omapM (depthExplore g fuel) (p :: rest)).map
        (fun ds => 1 + ds.foldl max (-1))

/-- The `_Node` record once `_depth` has annotated it: name, declared
parents, longest-path depth.  During `_best_order` the `depth` field is
mutated to `-1` as a visited flag; the embedding keeps the original depth
here and tracks visitation in a separate list. -/
structure Node where
  name : String
  parents : DepSpec
  depth : Int
  deriving Repr, DecidableEq

/-- `_depth`: annotate every node with its depth, in insertion order.
`g.length` fuel suffices for every acyclic graph because a longest dependency
chain visits each name at most once. -/
def depthAnnotate (g : Graph) : Option (List Node) :=
  omapM (fun kv => (depthExplore g g.length kv.1).map (fun d => Node.mk kv.1 kv.2 d)) g

/-- Node lookup by name (`annotated_graph[u]`, `g.get(p)`). -/
def nfind (nm : String) : List Node → Option Node
  | [] => none
  | v :: vs => if v.name = nm then some v else nfind nm vs

/-- Current value of the mutable `depth` field during `_best_order`:
`-1` once the node has been marked visited, its `_depth` value before. -/
def curDepth (visited : List String) (v : Node) : Int :=
  if v.name ∈ visited then -1 else v.depth

/-- The parent loop of `_best_order._explore` for a node with parents, one
iteration per parent node in the stably sorted order.  `f` is the recursive
exploration at the remaining fuel.  State: entries appended so far by the
recursive calls of this loop, the growing offsets list `b[1]`, the visited
names, and the gap counter `d` (`List.replicate d.toNat` realises Python's
`['_'] * d`, which is empty for `d = -1`).  Returns the appended entries,
the final offsets, and the final visited names. -/
def parentLoop (f : String → List String → Option (List Entry × List String)) :
    List Node → List Entry → List String → List String → Int →
      Option (List Entry × List String × List String)
  | [], accE, offs, visited, _ => some (accE, offs, visited)
  | v :: vs, accE, offs, visited, d =>
    match f v.name visited with
    | none => none
    | some (newE, visited') =>
      parentLoop f vs (accE ++ newE)
        (offs ++ List.replicate d.toNat "_" ++ [v.name]) visited'
        ((newE.length : Int) - 1)

/-- `_best_order._explore`.  A visited node (Python: `u.depth < 0`)
contributes nothing.  A fresh node with no parents is appended as
`(name, parents)`.  A fresh node with parents reserves its entry first
(Python appends `b` before recursing and mutates `b[1]` in place, so the
entry position is fixed while its offsets grow; here the entry is emitted
with its final offsets at the same position), marks itself visited, fetches
the parent nodes (`g.get(p)`; a `None` crashes Python inside `sorted`,
before any recursion, hence the lookup failure precedes the loop), sorts
them ascending by their current depth, and runs the parent loop.  Returns
the entries this call appends, first entry first, plus the new visited
names. -/
def exploreBO (nodes : List Node) : Nat → String → List String →
    Option (List Entry × List String)
  | 0, _, _ => none
  | fuel + 1, uname, visited =>
    if uname ∈ visited then some ([], visited)
    else
      match nfind uname nodes with
      | none => none
      | some u =>
        match u.parents with
        | none => some ([(uname, none)], uname :: visited)
        | some [] => some ([(uname, some [])], uname :: visited)
        | some (p :: ps) =>
          match omapM (fun q => nfind q nodes) (p :: ps) with
          | none => none
          | some pnodes =>
            match parentLoop (exploreBO nodes fuel)
                (pySorted (curDepth (uname :: visited)) pnodes)
                [] [] (uname :: visited) 0 with
            | none => none
            | some (tailE, offs, visited') =>
              some ((uname, some offs) :: tailE, visited')

/-- The outer loop of `_best_order`: explore every node in the given order,
accumulating the appended entries. -/
def outerLoop (nodes : List Node) (fuel : Nat) :
    List Node → List Entry → List String → Option (List Entry × List String)
  | [], accE, visited => some (accE, visited)
  | u :: us, accE, visited =>
    match exploreBO nodes fuel u.name visited with
    | none => none
    | some (newE, visited') => outerLoop nodes fuel us (accE ++ newE) visited'

/-- `_best_order`: depth-annotate the graph, visit all nodes in stable
depth-descending order, and reverse the appended result.  The fuel
`nodes.length + 1` covers every exploration chain, because each recursive
step consumes an unvisited name. -/
def bestOrder (g : Graph) : Option (List Entry) := do
  let nodes ← depthAnnotate g
  let (res, _) ← outerLoop nodes (nodes.length + 1)
      (pySortedDesc (fun v => v.depth) nodes) [] []
  pure res.reverse

section Wrapping

variable {M : Type} {V : Type}

/-- Result of `_make`: the three shapes of wrapped maker.  `const` is
`args is None` (a ready-made instance returned as is), `nullary` is an empty
argument tuple (`dist_fn()` with no arguments), `kw` the keyword-invoking
closure capturing the offsets list. -/
inductive Wrapped (M : Type) where
  | const (m : M)
  | nullary (m : M)
  | kw (m : M) (args : List String)
  deriving Repr, DecidableEq

/-- `_make(dist_fn, args)`. -/
def make (m : M) (args : DepSpec) : Wrapped M :=
  match args with
  | none => Wrapped.const m
  | some [] => Wrapped.nullary m
  | some (a :: rest) => Wrapped.kw m (a :: rest)

/-- One insertion into a Python `dict`: an existing key has its value
replaced in place, a fresh key is appended. -/
def pyDictInsert (d : List (String × V)) (kv : String × V) : List (String × V) :=
  if d.any (fun e => e.1 = kv.1) then
    d.map (fun e => if e.1 = kv.1 then (e.1, kv.2) else e)
  else d ++ [kv]

/-- `dict(pairs)`: left-to-right insertion, later duplicates overwrite. -/
def pyDict (ps : List (String × V)) : List (String × V) :=
  ps.foldl pyDictInsert []

/-- The keyword mapping built by the `_fn` closure inside `_make`:
`dict(zip(args, reversed(xs[-len(args):])))` followed by
`kwargs.pop('_', None)`.  `xs.drop (xs.length - args.length)` is the
trailing slice (clamped like a Python negative slice), `zip` truncates to
the shorter operand, and the `pop` of the single `'_'` key of a `dict` is a
filter. -/
def makeKwargs (args : List String) (xs : List V) : List (String × V) :=
  (pyDict (args.zip (xs.drop (xs.length - args.length)).reverse)).filter
    (fun e => decide (¬ e.1 = "_"))

/-- What a wrapped maker does when the sequential executor hands it the
previously produced values: either the ready-made instance is returned, or
the producer is called with a keyword mapping. -/
inductive Invocation (M : Type) (V : Type) where
  | ready (m : M)
  | called (m : M) (kwargs : List (String × V))
  deriving Repr, DecidableEq

/-- Behaviour of the three wrapper shapes on the history `xs` of previously
produced values. -/
def invoke : Wrapped M → List V → Invocation M V
  | Wrapped.const m, _ => Invocation.ready m
  | Wrapped.nullary m, _ => Invocation.called m []
  | Wrapped.kw m args, xs => Invocation.called m (makeKwargs args xs)

/-- The graph construction at the top of `_prob_chain_rule_flatten`:
`argsOf` abstracts the external dependency extractor (`None` for a
distribution instance, otherwise the tuple of required argument names). -/
def extractGraph (argsOf : M → DepSpec) (namedMakers : List (String × M)) : Graph :=
  namedMakers.map (fun kv => (kv.1, argsOf kv.2))

/-- `_prob_chain_rule_flatten`: resolve the order, then produce the four
index-aligned tuples `(dist_fn, dist_fn_wrapped, dist_fn_args,
dist_fn_name)`.  `zip(*g)` raises `ValueError` when the resolved tuple is
empty (unpacking into two names), hence the emptiness guard.  `dist_fn`
uses `named_makers.get(n)` (`none` possible), `dist_fn_wrapped` uses
`named_makers[name]` (`KeyError` on a missing name). -/
def probChainRuleFlatten (argsOf : M → DepSpec) (namedMakers : List (String × M)) :
    Option (List (Option M) × List (Wrapped M) × List DepSpec × List String) := do
  let res ← bestOrder (extractGraph argsOf namedMakers)
  if res.isEmpty then none
  else do
    let wrapped ← omapM (fun e => (dget e.1 namedMakers).map (fun m => make m e.2)) res
    pure (res.map (fun e => dget e.1 namedMakers), wrapped,
      res.map (fun e => e.2), res.map (fun e => e.1))

/-- A structure handed to `_flatten`: either mapping-like (it has a `get`
method) or record-like (fields read with `getattr`). -/
inductive PyStruct (V : Type) where
  | map (entries : List (String × V))
  | strct (fields : List (String × V))
  deriving Repr, DecidableEq

/-- `_flatten`: `None` becomes a tuple of `None`s; a mapping contributes
`xs.get(n, None)` per resolved name; a record contributes `getattr(xs, n)`,
which raises `AttributeError` when the field is absent. -/
def flatten (names : List String) : Option (PyStruct V) → Option (List (Option V))
  | none => some (List.replicate names.length none)
  | some (PyStruct.map e) => some (names.map (fun n => dget n e))
  | some (PyStruct.strct f) => omapM (fun n => (dget n f).map Option.some) names

/-- `_unflatten`: `dict(zip(self._dist_fn_name, xs))`, the reconstruction of
the original container type keeping one value per resolved name. -/
def unflatten (names : List String) (xs : List (Option V)) : List (String × Option V) :=
  names.zip xs

end Wrapping

/-- A topological witness order for a graph: a permutation of the keys in
which every declared parent occurs strictly before its child.  The bounded
quantification keeps the property decidable on concrete graphs. -/
def TopoOrder (g : Graph) (order : List String) : Prop :=
  order.Perm (g.map Prod.fst) ∧
    ∀ e ∈ g, ∀ p ∈ e.2.getD [], idxOf p order < idxOf e.1 order

/-- Acyclicity of the dependency declarations, as the existence of a
topological witness order. -/
def Acyclic (g : Graph) : Prop :=
  ∃ order, TopoOrder g order

instance (g : Graph) (order : List String) : Decidable (TopoOrder g order) := by
  unfold TopoOrder
  infer_instance

/-- Names of a node list, in order. -/
def nnames (nodes : List Node) : List String :=
  nodes.map Node.name

/-- Offsets discipline of a resolved entry: the entry belongs to a node of
the graph; a `None` declaration is passed through unchanged, and for a
declared tuple the entry carries an offsets list whose non-placeholder
members are a permutation of the declared argument names (provided no
argument is itself literally named `'_'`). -/
def EntryOk (nodes : List Node) (e : Entry) : Prop :=
  ∃ u, nfind e.1 nodes = some u ∧
    match u.parents with
    | none => e.2 = none
    | some ps =>
      ∃ offs, e.2 = some offs ∧
        ("_" ∉ ps → (offs.filter (fun s => decide (¬ s = "_"))).Perm ps)

/-- Two producers sharing the single dependency `a`.  Exploring `r1` emits
`a`; when `r2` is explored later its parent is already visited and is not
re-emitted, so the resolved order puts `r2` before `a`. -/
def cexShared : Graph :=
  [("a", some []), ("r1", some ["a"]), ("r2", some ["a"])]

/-- A node `c` with two parents `g` and `h` whose own dependencies force a
placeholder gap: `c`'s offsets list is `["g", "_", "h"]`, one slot longer
than its two declared arguments. -/
def cexPad : Graph :=
  [("e", some []), ("f", some []), ("g", some ["e"]), ("h", some ["f"]),
   ("c", some ["g", "h"])]

/-- The dependency declarations of the example in the Python docstring. -/
def exGraph : Graph :=
  [("e", none), ("g", some ["e"]), ("n", none), ("m", some ["n", "g"]),
   ("x", some ["m"])]

/-! ### Basic lemmas about the dictionary, index, and traversal helpers -/

theorem dget_mem {l : List (String × β)} {k : String} {v : β}
    (h : dget k l = some v) : (k, v) ∈ l := by
  induction l with
  | nil => simp [dget] at h
  | cons kv rest ih =>
    by_cases hk : kv.1 = k
    · simp [dget, hk] at h
      cases kv
      simp_all
    · simp [dget, hk] at h
      exact List.mem_cons_of_mem _ (ih h)

theorem dget_eq_none {l : List (String × β)} {k : String}
    (h : k ∉ l.map Prod.fst) : dget k l = none := by
  induction l with
  | nil => rfl
  | cons kv rest ih =>
    simp only [List.map_cons, List.mem_cons] at h
    push_neg at h
    simp [dget, Ne.symm h.1, ih h.2]

theorem dget_isSome_of_mem {l : List (String × β)} {k : String} {v : β}
    (h : (k, v) ∈ l) : (dget k l).isSome := by
  induction l with
  | nil => simp at h
  | cons kv rest ih =>
    by_cases hk : kv.1 = k
    · simp [dget, hk]
    · rcases List.mem_cons.mp h with h1 | h1
      · cases h1; simp at hk
      · simp [dget, hk, ih h1]

theorem dget_of_mem_nodup {l : List (String × β)} {k : String} {v : β}
    (hnd : (l.map Prod.fst).Nodup) (h : (k, v) ∈ l) : dget k l = some v := by
  induction l with
  | nil => simp at h
  | cons kv rest ih =>
    simp only [List.map_cons, List.nodup_cons] at hnd
    rcases List.mem_cons.mp h with h1 | h1
    · cases h1; simp [dget]
    · have hk : ¬ kv.1 = k := by
        intro he
        exact hnd.1 (he ▸ (List.mem_map.mpr ⟨(k, v), h1, rfl⟩))
      simp [dget, hk, ih hnd.2 h1]

theorem idxOf_lt_length_of_mem {l : List String} {nm : String}
    (h : nm ∈ l) : idxOf nm l < l.length := by
  induction l with
  | nil => simp at h
  | cons s rest ih =>
    by_cases hs : s = nm
    · simp [idxOf, hs]
    · rcases List.mem_cons.mp h with h1 | h1
      · exact absurd h1.symm hs
      · simpa [idxOf, hs] using ih h1

theorem mem_of_idxOf_lt_length {l : List String} {nm : String}
    (h : idxOf nm l < l.length) : nm ∈ l := by
  induction l with
  | nil => simp [idxOf] at h
  | cons s rest ih =>
    by_cases hs : s = nm
    · simp [hs]
    · simp only [idxOf, hs, if_false, List.length_cons, Nat.add_lt_add_iff_right] at h
      exact List.mem_cons_of_mem _ (ih h)

theorem omapM_forall₂ {f : α → Option β} :
    ∀ {l : List α} {l' : List β}, omapM f l = some l' →
      List.Forall₂ (fun a b => f a = some b) l l'
  | [], l', h => by
    simp only [omapM] at h
    cases h
    exact List.Forall₂.nil
  | a :: rest, l', h => by
    simp only [omapM] at h
    cases hfa : f a with
    | none => rw [hfa] at h; simp at h
    | some b =>
      cases hrest : omapM f rest with
      | none => rw [hfa, hrest] at h; simp at h
      | some bs =>
        rw [hfa, hrest] at h
        cases h
        exact List.Forall₂.cons hfa (omapM_forall₂ hrest)

theorem omapM_length {f : α → Option β} {l : List α} {l' : List β}
    (h : omapM f l = some l') : l'.length = l.length :=
  (omapM_forall₂ h).length_eq.symm

theorem omapM_eq_none_of_mem {f : α → Option β} {l : List α} {a : α}
    (ha : a ∈ l) (hf : f a = none) : omapM f l = none := by
  induction l with
  | nil => simp at ha
  | cons x rest ih =>
    rcases List.mem_cons.mp ha with h1 | h1
    · subst h1; simp [omapM, hf]
    · cases hfx : f x <;> simp [omapM, hfx, ih h1]

theorem omapM_isSome {f : α → Option β} {l : List α}
    (h : ∀ a ∈ l, (f a).isSome) : ∃ l', omapM f l = some l' := by
  induction l with
  | nil => exact ⟨[], rfl⟩
  | cons a rest ih =>
    obtain ⟨b, hb⟩ := Option.isSome_iff_exists.mp (h a (List.mem_cons_self a rest))
    obtain ⟨bs, hbs⟩ := ih (fun x hx => h x (List.mem_cons_of_mem _ hx))
    exact ⟨b :: bs, by simp [omapM, hb, hbs]⟩

theorem mem_of_omapM_mem {f : α → Option β} {l : List α} {l' : List β}
    (h : omapM f l = some l') {b : β} (hb : b ∈ l') :
    ∃ a ∈ l, f a = some b := by
  induction l generalizing l' with
  | nil => simp [omapM] at h; subst h; simp at hb
  | cons x rest ih =>
    simp only [omapM] at h
    cases hfx : f x with
    | none => rw [hfx] at h; simp at h
    | some c =>
      cases hrest : omapM f rest with
      | none => rw [hfx, hrest] at h; simp at h
      | some cs =>
        rw [hfx, hrest] at h
        cases h
        rcases List.mem_cons.mp hb with h1 | h1
        · exact ⟨x, List.mem_cons_self x rest, h1 ▸ hfx⟩
        · obtain ⟨a, ha, hfa⟩ := ih hrest h1
          exact ⟨a, List.mem_cons_of_mem _ ha, hfa⟩

theorem insertKey_perm (key : α → Int) (a : α) (l : List α) :
    (insertKey key a l).Perm (a :: l) := by
  induction l with
  | nil => exact List.Perm.refl _
  | cons b bs ih =>
    by_cases hab : key a ≤ key b
    · simp [insertKey, hab]
    · simp only [insertKey, hab, if_false]
      exact (ih.cons b).trans (List.Perm.swap a b bs)

theorem pySorted_perm (key : α → Int) (l : List α) :
    (pySorted key l).Perm l := by
  induction l with
  | nil => exact List.Perm.refl _
  | cons a rest ih =>
    exact (insertKey_perm key a (pySorted key rest)).trans (ih.cons a)

theorem nfind_some : ∀ {l : List Node} {nm : String} {u : Node},
    nfind nm l = some u → u ∈ l ∧ u.name = nm
  | [], _, _, h => by simp [nfind] at h
  | v :: vs, nm, u, h => by
    by_cases hv : v.name = nm
    · simp only [nfind, hv, if_true] at h
      cases h
      exact ⟨List.mem_cons_self _ _, hv⟩
    · simp only [nfind, hv, if_false] at h
      obtain ⟨h1, h2⟩ := nfind_some h
      exact ⟨List.mem_cons_of_mem _ h1, h2⟩

theorem nfind_isSome_of_mem {l : List Node} {nm : String}
    (h : nm ∈ nnames l) : (nfind nm l).isSome := by
  induction l with
  | nil => simp [nnames] at h
  | cons v vs ih =>
    by_cases hv : v.name = nm
    · simp [nfind, hv]
    · simp only [nnames, List.map_cons, List.mem_cons] at h
      rcases h with h1 | h1
      · exact absurd h1.symm hv
      · simp [nfind, hv, ih h1]

theorem length_filter_lt_of_cons_mem (l : List String) {vis : List String}
    {nm : String} (hmem : nm ∈ l) (hfresh : nm ∉ vis) :
    (l.filter (fun s => decide (s ∉ nm :: vis))).length <
      (l.filter (fun s => decide (s ∉ vis))).length := by
  have hsub : (l.filter (fun s => decide (s ∉ nm :: vis))).Sublist
      (l.filter (fun s => decide (s ∉ vis))) := by
    refine List.monotone_filter_right l (fun a ha => ?_)
    simp only [decide_eq_true_eq, List.mem_cons] at ha ⊢
    exact fun hv => ha (Or.inr hv)
  refine lt_of_le_of_ne hsub.length_le (fun heq => ?_)
  have : (l.filter (fun s => decide (s ∉ nm :: vis))) =
      (l.filter (fun s => decide (s ∉ vis))) := hsub.eq_of_length heq
  have hin : nm ∈ l.filter (fun s => decide (s ∉ vis)) := by
    simp [List.mem_filter, hmem, hfresh]
  rw [← this] at hin
  simp [List.mem_filter] at hin

theorem length_filter_le_of_subset (l : List String) {vis vis' : List String}
    (h : vis ⊆ vis') :
    (l.filter (fun s => decide (s ∉ vis'))).length ≤
      (l.filter (fun s => decide (s ∉ vis))).length := by
  refine List.Sublist.length_le (List.monotone_filter_right l (fun a ha => ?_))
  simp only [decide_eq_true_eq] at ha ⊢
  exact fun hv => ha (h hv)

theorem map_eq_of_forall₂ {R : α → β → Prop} (f : β → α)
    (hf : ∀ a b, R a b → f b = a) :
    ∀ {l : List α} {l' : List β}, List.Forall₂ R l l' → l'.map f = l := by
  intro l l' h
  induction h with
  | nil => rfl
  | cons hR _ ih => simp [ih, hf _ _ hR]

theorem map_name_of_omapM_nfind {nodes : List Node} {qs : List String}
    {pnodes : List Node} (h : omapM (fun q => nfind q nodes) qs = some pnodes) :
    pnodes.map Node.name = qs :=
  map_eq_of_forall₂ Node.name (fun _ _ hR => (nfind_some hR).2) (omapM_forall₂ h)

theorem filter_replicate_underscore (n : Nat) :
    (List.replicate n "_").filter (fun s => decide (¬ s = "_")) = [] := by
  induction n with
  | zero => rfl
  | succ n ih => simp [List.replicate_succ, ih]

/-! ### Stability of the stable sort (tie-break policy) -/

theorem filter_insertKey (key : α → Int) (c : Int) (a : α) (l : List α) :
    (insertKey key a l).filter (fun x => decide (key x = c)) =
      if key a = c then a :: l.filter (fun x => decide (key x = c))
      else l.filter (fun x => decide (key x = c)) := by
  induction l with
  | nil => by_cases ha : key a = c <;> simp [insertKey, ha]
  | cons b bs ih =>
    simp only [insertKey]
    by_cases hab : key a ≤ key b
    · rw [if_pos hab]
      by_cases ha : key a = c <;> simp [ha]
    · rw [if_neg hab]
      have hba : key b < key a := lt_of_not_ge hab
      by_cases ha : key a = c
      · have hb : ¬ key b = c := by
          intro hbc
          rw [ha] at hba
          exact absurd hbc (ne_of_lt hba)
        simp [ha, hb, ih]
      · by_cases hb : key b = c <;> simp [ha, hb, ih]

theorem filter_pySorted (key : α → Int) (c : Int) (l : List α) :
    (pySorted key l).filter (fun x => decide (key x = c)) =
      l.filter (fun x => decide (key x = c)) := by
  induction l with
  | nil => rfl
  | cons a rest ih =>
    rw [pySorted, filter_insertKey, ih]
    by_cases ha : key a = c <;> simp [ha]

theorem filter_pySortedDesc (key : α → Int) (c : Int) (l : List α) :
    (pySortedDesc key l).filter (fun x => decide (key x = c)) =
      l.filter (fun x => decide (key x = c)) := by
  have hfun : (fun x => decide (key x = c)) = (fun x => decide (-key x = -c)) := by
    funext x
    simp [neg_inj]
  rw [pySortedDesc, hfun, filter_pySorted]

/-! ### Invariants of the packing recursion `_best_order._explore` -/

theorem parentLoop_spec
    {f : String → List String → Option (List Entry × List String)}
    (hf : ∀ nm vis E vis', f nm vis = some (E, vis') →
      vis' = (E.map Prod.fst).reverse ++ vis) :
    ∀ {vs : List Node} {accE : List Entry} {offs visited : List String} {d : Int}
      {out : List Entry × List String × List String},
      parentLoop f vs accE offs visited d = some out →
      ∃ newE, out.1 = accE ++ newE ∧
        out.2.2 = (newE.map Prod.fst).reverse ++ visited
  | [], accE, offs, visited, d, out, h => by
    simp only [parentLoop] at h
    cases h
    exact ⟨[], by simp, by simp⟩
  | v :: vs, accE, offs, visited, d, out, h => by
    simp only [parentLoop] at h
    cases hfv : f v.name visited with
    | none => rw [hfv] at h; simp at h
    | some r =>
      obtain ⟨newE₁, vis₁⟩ := r
      rw [hfv] at h
      obtain ⟨newE₂, h1, h2⟩ := parentLoop_spec hf h
      refine ⟨newE₁ ++ newE₂, by simp [h1], ?_⟩
      rw [h2, hf _ _ _ _ hfv]
      simp

theorem parentLoop_offs
    {f : String → List String → Option (List Entry × List String)} :
    ∀ {vs : List Node} {accE : List Entry} {offs visited : List String} {d : Int}
      {out : List Entry × List String × List String},
      parentLoop f vs accE offs visited d = some out →
      out.2.1.filter (fun s => decide (¬ s = "_")) =
        offs.filter (fun s => decide (¬ s = "_")) ++
          (vs.map Node.name).filter (fun s => decide (¬ s = "_"))
  | [], accE, offs, visited, d, out, h => by
    simp only [parentLoop] at h
    cases h
    simp
  | v :: vs, accE, offs, visited, d, out, h => by
    simp only [parentLoop] at h
    cases hfv : f v.name visited with
    | none => rw [hfv] at h; simp at h
    | some r =>
      obtain ⟨newE₁, vis₁⟩ := r
      rw [hfv] at h
      rw [parentLoop_offs h]
      by_cases hv : v.name = "_" <;>
        simp [List.filter_append, filter_replicate_underscore, List.filter_cons,
          List.append_assoc, hv]

theorem parentLoop_entries
    {f : String → List String → Option (List Entry × List String)}
    (P : Entry → Prop)
    (hf : ∀ nm vis E vis', f nm vis = some (E, vis') → ∀ e ∈ E, P e) :
    ∀ {vs : List Node} {accE : List Entry} {offs visited : List String} {d : Int}
      {out : List Entry × List String × List String},
      parentLoop f vs accE offs visited d = some out →
      ∀ e ∈ out.1, e ∈ accE ∨ P e
  | [], accE, offs, visited, d, out, h => by
    simp only [parentLoop] at h
    cases h
    exact fun e he => Or.inl he
  | v :: vs, accE, offs, visited, d, out, h => by
    simp only [parentLoop] at h
    cases hfv : f v.name visited with
    | none => rw [hfv] at h; simp at h
    | some r =>
      obtain ⟨newE₁, vis₁⟩ := r
      rw [hfv] at h
      intro e he
      rcases parentLoop_entries P hf h e he with h1 | h1
      · rcases List.mem_append.mp h1 with h2 | h2
        · exact Or.inl h2
        · exact Or.inr (hf _ _ _ _ hfv e h2)
      · exact Or.inr h1

theorem parentLoop_nodup
    {f : String → List String → Option (List Entry × List String)}
    (hf : ∀ nm vis E vis', f nm vis = some (E, vis') → vis.Nodup → vis'.Nodup) :
    ∀ {vs : List Node} {accE : List Entry} {offs visited : List String} {d : Int}
      {out : List Entry × List String × List String},
      parentLoop f vs accE offs visited d = some out →
      visited.Nodup → out.2.2.Nodup
  | [], accE, offs, visited, d, out, h => by
    simp only [parentLoop] at h
    cases h
    exact fun hn => hn
  | v :: vs, accE, offs, visited, d, out, h => by
    simp only [parentLoop] at h
    cases hfv : f v.name visited with
    | none => rw [hfv] at h; simp at h
    | some r =>
      obtain ⟨newE₁, vis₁⟩ := r
      rw [hfv] at h
      exact fun hn => parentLoop_nodup hf h (hf _ _ _ _ hfv hn)

theorem parentLoop_isSome
    {f : String → List String → Option (List Entry × List String)}
    {names vis₀ : List String}
    (hmono : ∀ nm vis E vis', f nm vis = some (E, vis') → vis ⊆ vis')
    (hsome : ∀ nm vis, nm ∈ names → vis₀ ⊆ vis → (f nm vis).isSome) :
    ∀ {vs : List Node} {accE : List Entry} {offs visited : List String} {d : Int},
      (∀ v ∈ vs, v.name ∈ names) → vis₀ ⊆ visited →
      (parentLoop f vs accE offs visited d).isSome
  | [], accE, offs, visited, d, _, _ => by simp [parentLoop]
  | v :: vs, accE, offs, visited, d, hv, hvis => by
    have h1 : (f v.name visited).isSome :=
      hsome v.name visited (hv v (List.mem_cons_self v vs)) hvis
    obtain ⟨r, hr⟩ := Option.isSome_iff_exists.mp h1
    obtain ⟨newE, vis'⟩ := r
    simp only [parentLoop, hr]
    exact parentLoop_isSome hmono hsome
      (fun w hw => hv w (List.mem_cons_of_mem _ hw))
      (fun x hx => hmono _ _ _ _ hr (hvis hx))

theorem exploreBO_visited_eq (nodes : List Node) :
    ∀ (fuel : Nat) {uname : String} {visited : List String}
      {E : List Entry} {vis' : List String},
      exploreBO nodes fuel uname visited = some (E, vis') →
      vis' = (E.map Prod.fst).reverse ++ visited := by
  intro fuel
  induction fuel with
  | zero =>
    intro uname visited E vis' h
    simp [exploreBO] at h
  | succ fuel ih =>
    intro uname visited E vis' h
    simp only [exploreBO] at h
    by_cases hv : uname ∈ visited
    · rw [if_pos hv] at h
      cases h
      simp
    · rw [if_neg hv] at h
      cases hfind : nfind uname nodes with
      | none => rw [hfind] at h; simp at h
      | some u =>
        rw [hfind] at h
        dsimp only [] at h
        cases hp : u.parents with
        | none => rw [hp] at h; dsimp only [] at h; cases h; simp
        | some ps =>
          cases ps with
          | nil => rw [hp] at h; dsimp only [] at h; cases h; simp
          | cons p ps' =>
            rw [hp] at h
            dsimp only [] at h
            cases hmap : omapM (fun q => nfind q nodes) (p :: ps') with
            | none => rw [hmap] at h; simp at h
            | some pnodes =>
              rw [hmap] at h
              dsimp only [] at h
              cases hpl : parentLoop (exploreBO nodes fuel)
                  (pySorted (curDepth (uname :: visited)) pnodes)
                  [] [] (uname :: visited) 0 with
              | none => rw [hpl] at h; simp at h
              | some out =>
                obtain ⟨tailE, offs, vis₁⟩ := out
                rw [hpl] at h
                dsimp only [] at h
                cases h
                obtain ⟨newE, h1, h2⟩ :=
                  parentLoop_spec (fun nm vis E₁ vis₁' hfe => ih hfe) hpl
                simp only [List.nil_append] at h1
                subst h1
                simp
                exact h2

theorem exploreBO_subset {nodes : List Node} {fuel : Nat} {uname : String}
    {visited : List String} {E : List Entry} {vis' : List String}
    (h : exploreBO nodes fuel uname visited = some (E, vis')) :
    visited ⊆ vis' := by
  intro x hx
  rw [exploreBO_visited_eq nodes fuel h]
  exact List.mem_append_right _ hx

theorem exploreBO_self_mem {nodes : List Node} {fuel : Nat} {uname : String}
    {visited : List String} {E : List Entry} {vis' : List String}
    (h : exploreBO nodes fuel uname visited = some (E, vis')) :
    uname ∈ vis' := by
  cases fuel with
  | zero => simp [exploreBO] at h
  | succ fuel =>
    simp only [exploreBO] at h
    by_cases hv : uname ∈ visited
    · rw [if_pos hv] at h
      cases h
      exact hv
    · rw [if_neg hv] at h
      cases hfind : nfind uname nodes with
      | none => rw [hfind] at h; simp at h
      | some u =>
        rw [hfind] at h
        dsimp only [] at h
        cases hp : u.parents with
        | none => rw [hp] at h; dsimp only [] at h; cases h; exact List.mem_cons_self _ _
        | some ps =>
          cases ps with
          | nil => rw [hp] at h; dsimp only [] at h; cases h; exact List.mem_cons_self _ _
          | cons p ps' =>
            rw [hp] at h
            dsimp only [] at h
            cases hmap : omapM (fun q => nfind q nodes) (p :: ps') with
            | none => rw [hmap] at h; simp at h
            | some pnodes =>
              rw [hmap] at h
              dsimp only [] at h
              cases hpl : parentLoop (exploreBO nodes fuel)
                  (pySorted (curDepth (uname :: visited)) pnodes)
                  [] [] (uname :: visited) 0 with
              | none => rw [hpl] at h; simp at h
              | some out =>
                obtain ⟨tailE, offs, vis₁⟩ := out
                rw [hpl] at h
                dsimp only [] at h
                cases h
                obtain ⟨newE, h1, h2⟩ :=
                  parentLoop_spec
                    (fun nm vis E₁ vis₁' hfe => exploreBO_visited_eq nodes fuel hfe) hpl
                have h2' : vis' = (List.map Prod.fst newE).reverse ++
                    uname :: visited := h2
                rw [h2']
                exact List.mem_append_right _ (List.mem_cons_self _ _)

theorem exploreBO_entries_ok (nodes : List Node) :
    ∀ (fuel : Nat) {uname : String} {visited : List String}
      {E : List Entry} {vis' : List String},
      exploreBO nodes fuel uname visited = some (E, vis') →
      ∀ e ∈ E, EntryOk nodes e := by
  intro fuel
  induction fuel with
  | zero =>
    intro uname visited E vis' h
    simp [exploreBO] at h
  | succ fuel ih =>
    intro uname visited E vis' h
    simp only [exploreBO] at h
    by_cases hv : uname ∈ visited
    · rw [if_pos hv] at h
      cases h
      intro e he
      simp at he
    · rw [if_neg hv] at h
      cases hfind : nfind uname nodes with
      | none => rw [hfind] at h; simp at h
      | some u =>
        rw [hfind] at h
        dsimp only [] at h
        cases hp : u.parents with
        | none =>
          rw [hp] at h
          dsimp only [] at h
          cases h
          intro e he
          rcases List.mem_singleton.mp he with rfl
          exact ⟨u, hfind, by rw [hp]⟩
        | some ps =>
          cases ps with
          | nil =>
            rw [hp] at h
            dsimp only [] at h
            cases h
            intro e he
            rcases List.mem_singleton.mp he with rfl
            refine ⟨u, hfind, ?_⟩
            rw [hp]
            exact ⟨[], rfl, fun _ => List.Perm.refl _⟩
          | cons p ps' =>
            rw [hp] at h
            dsimp only [] at h
            cases hmap : omapM (fun q => nfind q nodes) (p :: ps') with
            | none => rw [hmap] at h; simp at h
            | some pnodes =>
              rw [hmap] at h
              dsimp only [] at h
              cases hpl : parentLoop (exploreBO nodes fuel)
                  (pySorted (curDepth (uname :: visited)) pnodes)
                  [] [] (uname :: visited) 0 with
              | none => rw [hpl] at h; simp at h
              | some out =>
                obtain ⟨tailE, offs, vis₁⟩ := out
                rw [hpl] at h
                dsimp only [] at h
                cases h
                intro e he
                rcases List.mem_cons.mp he with rfl | he'
                · refine ⟨u, hfind, ?_⟩
                  rw [hp]
                  refine ⟨offs, rfl, fun hnu => ?_⟩
                  have hoffs := parentLoop_offs hpl
                  simp only [List.filter_nil, List.nil_append] at hoffs
                  rw [hoffs]
                  have hperm : ((pySorted (curDepth (uname :: visited)) pnodes).map
                      Node.name).Perm (p :: ps') := by
                    have h1 := (pySorted_perm (curDepth (uname :: visited)) pnodes).map
                      Node.name
                    rw [map_name_of_omapM_nfind hmap] at h1
                    exact h1
                  have hfe : (p :: ps').filter (fun s => decide (¬ s = "_")) = p :: ps' :=
                    List.filter_eq_self.mpr (fun a ha => by
                      simp only [decide_eq_true_eq]
                      intro hae
                      exact hnu (hae ▸ ha))
                  have hfilt := hperm.filter (fun s => decide (¬ s = "_"))
                  rw [hfe] at hfilt
                  exact hfilt
                · have := parentLoop_entries (EntryOk nodes)
                    (fun nm vis E₁ vis₁' hfe => ih hfe) hpl
                  rcases this e he' with h1 | h1
                  · simp at h1
                  · exact h1

theorem exploreBO_nodup (nodes : List Node) :
    ∀ (fuel : Nat) {uname : String} {visited : List String}
      {E : List Entry} {vis' : List String},
      exploreBO nodes fuel uname visited = some (E, vis') →
      visited.Nodup → vis'.Nodup := by
  intro fuel
  induction fuel with
  | zero =>
    intro uname visited E vis' h
    simp [exploreBO] at h
  | succ fuel ih =>
    intro uname visited E vis' h hnd
    simp only [exploreBO] at h
    by_cases hv : uname ∈ visited
    · rw [if_pos hv] at h
      cases h
      exact hnd
    · rw [if_neg hv] at h
      cases hfind : nfind uname nodes with
      | none => rw [hfind] at h; simp at h
      | some u =>
        rw [hfind] at h
        dsimp only [] at h
        cases hp : u.parents with
        | none =>
          rw [hp] at h
          dsimp only [] at h
          cases h
          exact List.nodup_cons.mpr ⟨hv, hnd⟩
        | some ps =>
          cases ps with
          | nil =>
            rw [hp] at h
            dsimp only [] at h
            cases h
            exact List.nodup_cons.mpr ⟨hv, hnd⟩
          | cons p ps' =>
            rw [hp] at h
            dsimp only [] at h
            cases hmap : omapM (fun q => nfind q nodes) (p :: ps') with
            | none => rw [hmap] at h; simp at h
            | some pnodes =>
              rw [hmap] at h
              dsimp only [] at h
              cases hpl : parentLoop (exploreBO nodes fuel)
                  (pySorted (curDepth (uname :: visited)) pnodes)
                  [] [] (uname :: visited) 0 with
              | none => rw [hpl] at h; simp at h
              | some out =>
                obtain ⟨tailE, offs, vis₁⟩ := out
                rw [hpl] at h
                dsimp only [] at h
                cases h
                exact parentLoop_nodup (fun nm vis E₁ vis₁' hfe => ih hfe) hpl
                  (List.nodup_cons.mpr ⟨hv, hnd⟩)

theorem exploreBO_isSome {nodes : List Node}
    (hclosed : ∀ u ∈ nodes, ∀ p ∈ u.parents.getD [], p ∈ nnames nodes) :
    ∀ (fuel : Nat) {uname : String} {visited : List String},
      uname ∈ nnames nodes →
      ((nnames nodes).filter (fun s => decide (s ∉ visited))).length < fuel →
      (exploreBO nodes fuel uname visited).isSome := by
  intro fuel
  induction fuel with
  | zero =>
    intro uname visited _ hcount
    exact absurd hcount (Nat.not_lt_zero _)
  | succ fuel ih =>
    intro uname visited hmem hcount
    simp only [exploreBO]
    by_cases hv : uname ∈ visited
    · simp [hv]
    · rw [if_neg hv]
      obtain ⟨u, hu⟩ := Option.isSome_iff_exists.mp (nfind_isSome_of_mem hmem)
      rw [hu]
      dsimp only []
      cases hp : u.parents with
      | none => simp [hp]
      | some ps =>
        cases ps with
        | nil => simp [hp]
        | cons p ps' =>
          dsimp only []
          have hps : ∀ q ∈ p :: ps', q ∈ nnames nodes := by
            intro q hq
            have hcl := hclosed u (nfind_some hu).1
            rw [hp] at hcl
            exact hcl q (by simpa using hq)
          obtain ⟨pnodes, hmap⟩ :=
            omapM_isSome (fun q hq => nfind_isSome_of_mem (hps q hq))
          rw [hmap]
          dsimp only []
          have hcount' : ∀ vis : List String, (uname :: visited) ⊆ vis →
              ((nnames nodes).filter (fun s => decide (s ∉ vis))).length < fuel := by
            intro vis hsub
            have h1 := length_filter_le_of_subset (nnames nodes) hsub
            have h2 := length_filter_lt_of_cons_mem (nnames nodes) hmem hv
            omega
          have hmono : ∀ nm vis (E₁ : List Entry) (vis₁' : List String),
              exploreBO nodes fuel nm vis = some (E₁, vis₁') → vis ⊆ vis₁' :=
            fun nm vis E₁ vis₁' he => exploreBO_subset he
          have hsome : ∀ nm vis, nm ∈ nnames nodes → (uname :: visited) ⊆ vis →
              (exploreBO nodes fuel nm vis).isSome :=
            fun nm vis hnm hsub => ih hnm (hcount' vis hsub)
          have hvnames : ∀ v ∈ pySorted (curDepth (uname :: visited)) pnodes,
              v.name ∈ nnames nodes := by
            intro v hvmem
            have hvp : v ∈ pnodes :=
              (pySorted_perm (curDepth (uname :: visited)) pnodes).mem_iff.mp hvmem
            obtain ⟨q, _, hfq⟩ := mem_of_omapM_mem hmap hvp
            exact List.mem_map.mpr ⟨v, (nfind_some hfq).1, rfl⟩
          have hpls : (parentLoop (exploreBO nodes fuel)
              (pySorted (curDepth (uname :: visited)) pnodes)
              [] [] (uname :: visited) 0).isSome :=
            parentLoop_isSome hmono hsome hvnames (List.Subset.refl _)
          obtain ⟨out, hout⟩ := Option.isSome_iff_exists.mp hpls
          obtain ⟨a, b, c⟩ := out
          rw [hout]
          simp

theorem outerLoop_spec {nodes : List Node} {fuel : Nat} :
    ∀ {us : List Node} {accE : List Entry} {visited : List String}
      {res : List Entry} {visF : List String},
      outerLoop nodes fuel us accE visited = some (res, visF) →
      ∃ newE, res = accE ++ newE ∧ visF = (newE.map Prod.fst).reverse ++ visited
  | [], accE, visited, res, visF, h => by
    simp only [outerLoop] at h
    cases h
    exact ⟨[], by simp, by simp⟩
  | u :: us, accE, visited, res, visF, h => by
    simp only [outerLoop] at h
    cases he : exploreBO nodes fuel u.name visited with
    | none => rw [he] at h; simp at h
    | some r =>
      obtain ⟨newE₁, vis₁⟩ := r
      rw [he] at h
      obtain ⟨newE₂, h1, h2⟩ := outerLoop_spec h
      refine ⟨newE₁ ++ newE₂, by simp [h1], ?_⟩
      rw [h2, exploreBO_visited_eq nodes fuel he]
      simp

theorem outerLoop_subset {nodes : List Node} {fuel : Nat} {us : List Node}
    {accE : List Entry} {visited : List String} {res : List Entry}
    {visF : List String}
    (h : outerLoop nodes fuel us accE visited = some (res, visF)) :
    visited ⊆ visF := by
  obtain ⟨newE, _, h2⟩ := outerLoop_spec h
  rw [h2]
  exact fun x hx => List.mem_append_right _ hx

theorem outerLoop_entries {nodes : List Node} {fuel : Nat} :
    ∀ {us : List Node} {accE : List Entry} {visited : List String}
      {res : List Entry} {visF : List String},
      outerLoop nodes fuel us accE visited = some (res, visF) →
      ∀ e ∈ res, e ∈ accE ∨ EntryOk nodes e
  | [], accE, visited, res, visF, h => by
    simp only [outerLoop] at h
    cases h
    exact fun e he => Or.inl he
  | u :: us, accE, visited, res, visF, h => by
    simp only [outerLoop] at h
    cases he : exploreBO nodes fuel u.name visited with
    | none => rw [he] at h; simp at h
    | some r =>
      obtain ⟨newE₁, vis₁⟩ := r
      rw [he] at h
      intro e hee
      rcases outerLoop_entries h e hee with h1 | h1
      · rcases List.mem_append.mp h1 with h2 | h2
        · exact Or.inl h2
        · exact Or.inr (exploreBO_entries_ok nodes fuel he e h2)
      · exact Or.inr h1

theorem outerLoop_nodup {nodes : List Node} {fuel : Nat} :
    ∀ {us : List Node} {accE : List Entry} {visited : List String}
      {res : List Entry} {visF : List String},
      outerLoop nodes fuel us accE visited = some (res, visF) →
      visited.Nodup → visF.Nodup
  | [], accE, visited, res, visF, h => by
    simp only [outerLoop] at h
    cases h
    exact fun hn => hn
  | u :: us, accE, visited, res, visF, h => by
    simp only [outerLoop] at h
    cases he : exploreBO nodes fuel u.name visited with
    | none => rw [he] at h; simp at h
    | some r =>
      obtain ⟨newE₁, vis₁⟩ := r
      rw [he] at h
      exact fun hn => outerLoop_nodup h (exploreBO_nodup nodes fuel he hn)

theorem outerLoop_mem {nodes : List Node} {fuel : Nat} :
    ∀ {us : List Node} {accE : List Entry} {visited : List String}
      {res : List Entry} {visF : List String},
      outerLoop nodes fuel us accE visited = some (res, visF) →
      ∀ u ∈ us, u.name ∈ visF
  | [], accE, visited, res, visF, h => by
    intro u hu
    simp at hu
  | u₀ :: us, accE, visited, res, visF, h => by
    simp only [outerLoop] at h
    cases he : exploreBO nodes fuel u₀.name visited with
    | none => rw [he] at h; simp at h
    | some r =>
      obtain ⟨newE₁, vis₁⟩ := r
      rw [he] at h
      intro u hu
      rcases List.mem_cons.mp hu with rfl | hu'
      · exact outerLoop_subset h (exploreBO_self_mem he)
      · exact outerLoop_mem h u hu'

theorem outerLoop_isSome {nodes : List Node}
    (hclosed : ∀ u ∈ nodes, ∀ p ∈ u.parents.getD [], p ∈ nnames nodes)
    {fuel : Nat} (hfuel : (nnames nodes).length < fuel) :
    ∀ {us : List Node} {accE : List Entry} {visited : List String},
      (∀ u ∈ us, u.name ∈ nnames nodes) →
      (outerLoop nodes fuel us accE visited).isSome
  | [], accE, visited, _ => by simp [outerLoop]
  | u :: us, accE, visited, hus => by
    have h1 : (exploreBO nodes fuel u.name visited).isSome := by
      refine exploreBO_isSome hclosed fuel (hus u (List.mem_cons_self u us)) ?_
      exact lt_of_le_of_lt (List.length_filter_le _ _) hfuel
    obtain ⟨r, hr⟩ := Option.isSome_iff_exists.mp h1
    obtain ⟨newE, vis'⟩ := r
    simp only [outerLoop, hr]
    exact outerLoop_isSome hclosed hfuel
      (fun w hw => hus w (List.mem_cons_of_mem _ hw))

/-! ### The depth pass: fuel monotonicity, success, and alignment -/

theorem omapM_of_pointwise {f f' : α → Option β}
    (hff : ∀ a b, f a = some b → f' a = some b) :
    ∀ {l : List α} {l' : List β}, omapM f l = some l' → omapM f' l = some l'
  | [], l', h => h
  | a :: rest, l', h => by
    simp only [omapM] at h ⊢
    cases hfa : f a with
    | none => rw [hfa] at h; simp at h
    | some b =>
      cases hrest : omapM f rest with
      | none => rw [hfa, hrest] at h; simp at h
      | some bs =>
        rw [hfa, hrest] at h
        rw [hff a b hfa, omapM_of_pointwise hff hrest]
        exact h

theorem foldl_max_init_le (l : List Int) : ∀ b : Int, b ≤ l.foldl max b := by
  induction l with
  | nil => intro b; exact le_refl b
  | cons x xs ih =>
    intro b
    exact le_trans (le_max_left b x) (ih (max b x))

theorem depthExplore_mono {g : Graph} :
    ∀ {fuel fuel' : Nat}, fuel ≤ fuel' →
      ∀ {nm : String} {d : Int}, depthExplore g fuel nm = some d →
        depthExplore g fuel' nm = some d := by
  intro fuel
  induction fuel with
  | zero =>
    intro fuel' _ nm d h
    simp [depthExplore] at h
  | succ fuel ih =>
    intro fuel' hle nm d h
    obtain ⟨fuel'', rfl⟩ : ∃ k, fuel' = k + 1 := by
      cases fuel' with
      | zero => omega
      | succ k => exact ⟨k, rfl⟩
    simp only [depthExplore] at h ⊢
    cases hd : dget nm g with
    | none => rw [hd] at h; simp at h
    | some v =>
      rw [hd] at h
      cases v with
      | none => exact h
      | some ps =>
        cases ps with
        | nil => exact h
        | cons q qs =>
          dsimp only [] at h ⊢
          cases hm : omapM (depthExplore g fuel) (q :: qs) with
          | none => rw [hm] at h; simp at h
          | some ds =>
            rw [hm] at h
            rw [omapM_of_pointwise (fun a b hab => ih (by omega) hab) hm]
            exact h

theorem depthExplore_nonneg {g : Graph} :
    ∀ {fuel : Nat} {nm : String} {d : Int},
      depthExplore g fuel nm = some d → 0 ≤ d := by
  intro fuel
  induction fuel with
  | zero =>
    intro nm d h
    simp [depthExplore] at h
  | succ fuel _ =>
    intro nm d h
    simp only [depthExplore] at h
    cases hd : dget nm g with
    | none => rw [hd] at h; simp at h
    | some v =>
      rw [hd] at h
      cases v with
      | none => cases h; exact le_refl 0
      | some ps =>
        cases ps with
        | nil => cases h; exact le_refl 0
        | cons q qs =>
          dsimp only [] at h
          cases hm : omapM (depthExplore g fuel) (q :: qs) with
          | none => rw [hm] at h; simp at h
          | some ds =>
            rw [hm] at h
            simp only [Option.map_some', Option.some.injEq] at h
            have := foldl_max_init_le ds (-1)
            omega

theorem dget_isSome_of_key_mem {l : List (String × β)} {k : String}
    (h : k ∈ l.map Prod.fst) : (dget k l).isSome := by
  obtain ⟨kv, hkv, hk⟩ := List.mem_map.mp h
  obtain ⟨k', v⟩ := kv
  cases hk
  exact dget_isSome_of_mem hkv

theorem depthExplore_isSome_of_topo {g : Graph} {order : List String}
    (htopo : TopoOrder g order) :
    ∀ (fuel : Nat) {nm : String}, nm ∈ g.map Prod.fst →
      idxOf nm order < fuel → (depthExplore g fuel nm).isSome := by
  intro fuel
  induction fuel with
  | zero =>
    intro nm _ hcount
    exact absurd hcount (Nat.not_lt_zero _)
  | succ fuel ih =>
    intro nm hmem hidx
    simp only [depthExplore]
    obtain ⟨v, hv⟩ := Option.isSome_iff_exists.mp (dget_isSome_of_key_mem hmem)
    rw [hv]
    cases v with
    | none => simp
    | some ps =>
      cases ps with
      | nil => simp
      | cons q qs =>
        dsimp only []
        have hedge : ∀ p ∈ q :: qs, idxOf p order < idxOf nm order := by
          intro p hp
          have := htopo.2 (nm, some (q :: qs)) (dget_mem hv) p
          simpa using this hp
        have hnmo : nm ∈ order := htopo.1.mem_iff.mpr hmem
        have hlen : idxOf nm order < order.length := idxOf_lt_length_of_mem hnmo
        have hsome : ∀ p ∈ q :: qs, (depthExplore g fuel p).isSome := by
          intro p hp
          have h1 : idxOf p order < idxOf nm order := hedge p hp
          have h2 : p ∈ order := mem_of_idxOf_lt_length (lt_trans h1 hlen)
          have h3 : p ∈ g.map Prod.fst := htopo.1.mem_iff.mp h2
          exact ih h3 (by omega)
        obtain ⟨ds, hds⟩ := omapM_isSome hsome
        rw [hds]
        simp

theorem depthAnnotate_isSome_of_topo {g : Graph} {order : List String}
    (htopo : TopoOrder g order) : ∃ nodes, depthAnnotate g = some nodes := by
  refine omapM_isSome (fun kv hkv => ?_)
  have hmem : kv.1 ∈ g.map Prod.fst := List.mem_map.mpr ⟨kv, hkv, rfl⟩
  have hko : kv.1 ∈ order := htopo.1.mem_iff.mpr hmem
  have hidx : idxOf kv.1 order < order.length := idxOf_lt_length_of_mem hko
  have hlen : order.length = g.length := by
    have := htopo.1.length_eq
    simpa using this
  have h1 : (depthExplore g g.length kv.1).isSome :=
    depthExplore_isSome_of_topo htopo g.length hmem (by omega)
  obtain ⟨d, hd⟩ := Option.isSome_iff_exists.mp h1
  rw [hd]
  simp

theorem depthAnnotate_forall₂ {g : Graph} {nodes : List Node}
    (h : depthAnnotate g = some nodes) :
    List.Forall₂ (fun (kv : String × DepSpec) (u : Node) => u.name = kv.1 ∧
      u.parents = kv.2 ∧ depthExplore g g.length kv.1 = some u.depth) g nodes := by
  refine (omapM_forall₂ h).imp ?_
  intro kv u hku
  cases hd : depthExplore g g.length kv.1 with
  | none => rw [hd] at hku; simp at hku
  | some d =>
    rw [hd] at hku
    simp only [Option.map_some', Option.some.injEq] at hku
    subst hku
    simp [hd]

theorem map_map_of_forall₂ {R : α → β → Prop} {γ : Type w} (f : β → γ) (g' : α → γ)
    (hf : ∀ a b, R a b → f b = g' a) :
    ∀ {l : List α} {l' : List β}, List.Forall₂ R l l' → l'.map f = l.map g' := by
  intro l l' h
  induction h with
  | nil => rfl
  | cons hR _ ih => simp [ih, hf _ _ hR]

theorem depthAnnotate_names {g : Graph} {nodes : List Node}
    (h : depthAnnotate g = some nodes) : nnames nodes = g.map Prod.fst :=
  map_map_of_forall₂ Node.name Prod.fst (fun _ _ hab => hab.1)
    (depthAnnotate_forall₂ h)

theorem nfind_of_annotate_aux :
    ∀ {g : Graph} {gl : Graph} {nodes : List Node},
      List.Forall₂ (fun (kv : String × DepSpec) (u : Node) => u.name = kv.1 ∧
        u.parents = kv.2 ∧ depthExplore g g.length kv.1 = some u.depth) gl nodes →
      ∀ {nm : String} {u : Node}, nfind nm nodes = some u →
        dget nm gl = some u.parents ∧ depthExplore g g.length nm = some u.depth := by
  intro g gl nodes h
  induction h with
  | nil =>
    intro nm u hf
    simp [nfind] at hf
  | cons hR hrest ih =>
    intro nm u hf
    rename_i kv u₀ gl' nodes'
    obtain ⟨hname, hpar, hdep⟩ := hR
    by_cases he : u₀.name = nm
    · simp only [nfind, he, if_pos] at hf
      cases hf
      have hk : kv.1 = nm := by rw [← hname, he]
      constructor
      · simp [dget, hk, ← hpar]
      · rw [← hk]
        exact hdep
    · simp only [nfind, he, if_neg, if_false] at hf
      have hk : ¬ kv.1 = nm := by rw [← hname]; exact he
      rcases ih hf with ⟨h1, h2⟩
      exact ⟨by simp [dget, hk, h1], h2⟩

theorem nfind_of_annotate {g : Graph} {nodes : List Node}
    (h : depthAnnotate g = some nodes) {nm : String} {u : Node}
    (hf : nfind nm nodes = some u) :
    dget nm g = some u.parents ∧ depthExplore g g.length nm = some u.depth :=
  nfind_of_annotate_aux (depthAnnotate_forall₂ h) hf

theorem forall₂_mem_right {R : α → β → Prop} :
    ∀ {l : List α} {l' : List β}, List.Forall₂ R l l' →
      ∀ b ∈ l', ∃ a ∈ l, R a b := by
  intro l l' h
  induction h with
  | nil => intro b hb; simp at hb
  | cons hR _ ih =>
    intro b hb
    rcases List.mem_cons.mp hb with rfl | hb'
    · exact ⟨_, List.mem_cons_self _ _, hR⟩
    · obtain ⟨a, ha, hab⟩ := ih b hb'
      exact ⟨a, List.mem_cons_of_mem _ ha, hab⟩

/-! ### Assembly: `_best_order` on acyclic graphs -/

theorem bestOrder_cases {g : Graph} {res : List Entry}
    (h : bestOrder g = some res) :
    ∃ nodes accE visF, depthAnnotate g = some nodes ∧
      outerLoop nodes (nodes.length + 1)
        (pySortedDesc (fun v => v.depth) nodes) [] [] = some (accE, visF) ∧
      res = accE.reverse := by
  unfold bestOrder at h
  cases ha : depthAnnotate g with
  | none => rw [ha] at h; simp at h
  | some nodes =>
    rw [ha] at h
    simp only [Option.bind_eq_bind, Option.some_bind] at h
    cases ho : outerLoop nodes (nodes.length + 1)
        (pySortedDesc (fun v => v.depth) nodes) [] [] with
    | none => rw [ho] at h; simp at h
    | some r =>
      obtain ⟨accE, visF⟩ := r
      rw [ho] at h
      simp only [Option.some_bind, Option.pure_def, Option.some.injEq] at h
      exact ⟨nodes, accE, visF, rfl, ho, h.symm⟩

theorem key_mem_of_dget_some {l : List (String × β)} {k : String} {v : β}
    (h : dget k l = some v) : k ∈ l.map Prod.fst :=
  List.mem_map.mpr ⟨(k, v), dget_mem h, rfl⟩

theorem bestOrder_of_topo {g : Graph} {order : List String}
    (hnd : (g.map Prod.fst).Nodup) (htopo : TopoOrder g order) :
    ∃ res, bestOrder g = some res ∧ (res.map Prod.fst).Perm (g.map Prod.fst) := by
  obtain ⟨nodes, ha⟩ := depthAnnotate_isSome_of_topo htopo
  have hnames : nnames nodes = g.map Prod.fst := depthAnnotate_names ha
  have hclosed : ∀ u ∈ nodes, ∀ p ∈ u.parents.getD [], p ∈ nnames nodes := by
    intro u hu p hp
    obtain ⟨kv, hkv, hR⟩ := forall₂_mem_right (depthAnnotate_forall₂ ha) u hu
    obtain ⟨hn, hpar, _⟩ := hR
    rw [hpar] at hp
    have hedge := htopo.2 kv hkv p hp
    have hk1 : kv.1 ∈ g.map Prod.fst := List.mem_map.mpr ⟨kv, hkv, rfl⟩
    have hk1o : kv.1 ∈ order := htopo.1.mem_iff.mpr hk1
    have hlt : idxOf kv.1 order < order.length := idxOf_lt_length_of_mem hk1o
    have hpo : p ∈ order := mem_of_idxOf_lt_length (lt_trans hedge hlt)
    rw [hnames]
    exact htopo.1.mem_iff.mp hpo
  have hfuel : (nnames nodes).length < nodes.length + 1 := by
    simp [nnames]
  have hus : ∀ u ∈ pySortedDesc (fun v => v.depth) nodes, u.name ∈ nnames nodes := by
    intro u hu
    have hun : u ∈ nodes := (pySorted_perm _ nodes).mem_iff.mp hu
    exact List.mem_map.mpr ⟨u, hun, rfl⟩
  have hsome : (outerLoop nodes (nodes.length + 1)
      (pySortedDesc (fun v => v.depth) nodes) [] []).isSome :=
    outerLoop_isSome hclosed hfuel hus
  obtain ⟨r, hr⟩ := Option.isSome_iff_exists.mp hsome
  obtain ⟨accE, visF⟩ := r
  obtain ⟨newE, h1, h2⟩ := outerLoop_spec hr
  simp only [List.nil_append] at h1
  subst h1
  simp only [List.append_nil] at h2
  have hvnd : visF.Nodup := outerLoop_nodup hr List.nodup_nil
  have hsub1 : visF ⊆ nnames nodes := by
    intro x hx
    rw [h2, List.mem_reverse] at hx
    obtain ⟨e, he, rfl⟩ := List.mem_map.mp hx
    have hok : EntryOk nodes e := by
      rcases outerLoop_entries hr e he with h3 | h3
      · simp at h3
      · exact h3
    obtain ⟨w, hw, _⟩ := hok
    exact List.mem_map.mpr ⟨w, (nfind_some hw).1, (nfind_some hw).2⟩
  have hsub2 : nnames nodes ⊆ visF := by
    intro nm hnm
    obtain ⟨w, hw, rfl⟩ := List.mem_map.mp hnm
    have hws : w ∈ pySortedDesc (fun v => v.depth) nodes :=
      (pySorted_perm _ nodes).mem_iff.mpr hw
    exact outerLoop_mem hr w hws
  have hnnd : (nnames nodes).Nodup := by rw [hnames]; exact hnd
  have hperm : visF.Perm (nnames nodes) :=
    (hvnd.subperm hsub1).antisymm (hnnd.subperm hsub2)
  refine ⟨accE.reverse, ?_, ?_⟩
  · simp [bestOrder, ha, hr]
  · rw [List.map_reverse, ← h2, ← hnames]
    exact hperm

/-! ### Failure on a missing dependency name -/

theorem depthExplore_none_of_missing {g : Graph} {p : String}
    (habs : p ∉ g.map Prod.fst) : ∀ fuel, depthExplore g fuel p = none := by
  intro fuel
  cases fuel with
  | zero => rfl
  | succ l => simp [depthExplore, dget_eq_none habs]

theorem depthAnnotate_none_of_missing {g : Graph} {k p : String}
    {ps : List String} (hnd : (g.map Prod.fst).Nodup) (hk : (k, some ps) ∈ g)
    (hp : p ∈ ps) (habs : p ∉ g.map Prod.fst) : depthAnnotate g = none := by
  cases ps with
  | nil => simp at hp
  | cons q qs =>
    refine omapM_eq_none_of_mem hk ?_
    obtain ⟨l, hl⟩ : ∃ l, g.length = l + 1 := by
      cases g with
      | nil => simp at hk
      | cons kv rest => exact ⟨rest.length, rfl⟩
    have hk' : depthExplore g g.length k = none := by
      rw [hl]
      simp only [depthExplore]
      rw [dget_of_mem_nodup hnd hk]
      dsimp only []
      rw [omapM_eq_none_of_mem hp (depthExplore_none_of_missing habs l)]
      rfl
    simp [hk']

/-! ### Keyword construction and flatten helpers -/

theorem extractGraph_keys {M : Type} (argsOf : M → DepSpec)
    (namedMakers : List (String × M)) :
    (extractGraph argsOf namedMakers).map Prod.fst = namedMakers.map Prod.fst := by
  induction namedMakers with
  | nil => rfl
  | cons kv rest ih =>
    simp only [extractGraph, List.map_cons] at ih ⊢
    simp [ih]

theorem underscore_not_in_makeKwargs {V : Type} (args : List String)
    (xs : List V) : "_" ∉ (makeKwargs args xs).map Prod.fst := by
  intro h
  obtain ⟨e, he, hfst⟩ := List.mem_map.mp h
  have he' : e ∈ (pyDict (args.zip
      (xs.drop (xs.length - args.length)).reverse)).filter
      (fun e => decide (¬ e.1 = "_")) := he
  have hpred := List.of_mem_filter he'
  rw [hfst] at hpred
  simp at hpred

theorem dget_zip_map {γ : Type w} (h : String → γ) :
    ∀ {names : List String} {n : String}, n ∈ names →
      dget n (names.zip (names.map h)) = some (h n)
  | [], n, hn => by simp at hn
  | m :: rest, n, hn => by
    simp only [List.map_cons, List.zip_cons_cons]
    by_cases hm : m = n
    · subst hm
      simp [dget]
    · rcases List.mem_cons.mp hn with rfl | hn'
      · exact absurd rfl hm
      · simp [dget, hm, dget_zip_map h hn']

theorem omapM_getsome {V : Type} {f' : String → Option V} :
    ∀ {names : List String}, (∀ m ∈ names, (f' m).isSome) →
      omapM (fun n => (f' n).map Option.some) names = some (names.map f')
  | [], _ => rfl
  | m :: rest, h => by
    obtain ⟨v, hv⟩ := Option.isSome_iff_exists.mp (h m (List.mem_cons_self m rest))
    simp only [omapM, hv, Option.map_some']
    rw [omapM_getsome (fun q hq => h q (List.mem_cons_of_mem _ hq))]
    simp [hv]

theorem flatten_strct_of_full {V : Type} {names : List String}
    {f : List (String × V)} (hfull : ∀ m ∈ names, m ∈ f.map Prod.fst) :
    flatten names (some (PyStruct.strct f)) =
      some (names.map (fun n => dget n f)) := by
  unfold flatten
  exact omapM_getsome (fun m hm => dget_isSome_of_key_mem (hfull m hm))

/-! ### Offsets of a resolved entry against its declaration -/

theorem bestOrder_entry_offsets {g : Graph} {res : List Entry} {n : String}
    {offs ps : List String}
    (hres : bestOrder g = some res) (he : (n, some offs) ∈ res)
    (hg : dget n g = some (some ps)) (hu : "_" ∉ ps) :
    (offs.filter (fun s => decide (¬ s = "_"))).Perm ps := by
  obtain ⟨nodes, accE, visF, ha, ho, hacc⟩ := bestOrder_cases hres
  subst hacc
  rw [List.mem_reverse] at he
  have hok : EntryOk nodes (n, some offs) := by
    rcases outerLoop_entries ho _ he with h1 | h1
    · simp at h1
    · exact h1
  obtain ⟨u, hfind, hmatch⟩ := hok
  obtain ⟨hdget, _⟩ := nfind_of_annotate ha hfind
  rw [hg] at hdget
  have hpar : u.parents = some ps := (Option.some.inj hdget).symm
  rw [hpar] at hmatch
  obtain ⟨offs', hoe, hperm⟩ := hmatch
  have hoo : offs' = offs := (Option.some.inj hoe).symm
  subst hoo
  exact hperm hu

theorem key_mem_of_depthExplore_some {g : Graph} {fuel : Nat} {q : String}
    {d : Int} (h : depthExplore g fuel q = some d) : q ∈ g.map Prod.fst := by
  cases fuel with
  | zero => simp [depthExplore] at h
  | succ l =>
    simp only [depthExplore] at h
    cases hd : dget q g with
    | none => rw [hd] at h; simp at h
    | some v => exact key_mem_of_dget_some hd

/-! ### Sanity anchors from the Python docstring and the specification -/

example : bestOrder exGraph =
    some [("e", none), ("g", some ["e"]), ("n", none), ("m", some ["n", "g"]),
      ("x", some ["m"])] := rfl

example : bestOrder [("a", some []), ("b", some []), ("c", some ["a", "b"])] =
    some [("b", some []), ("a", some []), ("c", some ["a", "b"])] := rfl

/-! ### The claims -/

/-- C1: the claim says the resolved order is topologically valid for every
acyclic collection.  The code violates it: in `cexShared` both `r1` and `r2`
depend on `a`; exploring `r1` emits `a`, and when `r2` is explored its parent
is already visited (`depth = -1`) and is not re-emitted, so the resolved
order is `r2, a, r1`: the parent `a` of `r2` sits at position 1, after its
child at position 0. -/
theorem c1_shared_parent_breaks_topo :
    bestOrder cexShared =
      some [("r2", some ["a"]), ("a", some []), ("r1", some ["a"])] ∧
    ("r2", some ["a"]) ∈ cexShared ∧
    ¬ idxOf "a" ["r2", "a", "r1"] < idxOf "r2" ["r2", "a", "r1"] :=
  ⟨rfl, by decide, by decide⟩

/-- C2: the claim says each resolved entry finds parent `o[j]` at position
`i - 1 - j` and that the wrapper recovers the declared arguments from the
trailing window.  On `cexShared`, `r2` lands at position 0 with offsets
`["a"]`, so the claimed parent position is `-1`: there is no prior output at
all, the trailing slice is empty, the keyword mapping built by `_make`'s
closure is empty, and the declared argument `a` is never recovered. -/
theorem c2_trailing_window_fails_on_shared_parent :
    bestOrder cexShared =
      some [("r2", some ["a"]), ("a", some []), ("r1", some ["a"])] ∧
    makeKwargs ["a"] ([] : List Nat) = [] ∧
    invoke (make "maker" (some ["a"])) ([] : List Nat) =
      Invocation.called "maker" [] :=
  ⟨rfl, rfl, rfl⟩

/-- C3 counterexample: in `cexPad` the node `c` declares two arguments
`(g, h)`, but its resolved offsets list is `["g", "_", "h"]` with a
placeholder gap, so the number of offset slots is 3, not 2. -/
theorem c3_offsets_padding_cex :
    bestOrder cexPad =
      some [("f", some []), ("h", some ["f"]), ("e", some []),
        ("g", some ["e"]), ("c", some ["g", "_", "h"])] ∧
    ("c", some ["g", "h"]) ∈ cexPad ∧
    ¬ (["g", "_", "h"] : List String).length = (["g", "h"] : List String).length :=
  ⟨rfl, by decide, by decide⟩

/-- C3 amended: for every resolved entry of a successful resolution, the
non-placeholder offsets are a permutation of the declared argument tuple
(assuming no argument is literally named `'_'`): their number equals the
number of declared arguments and, when the declared names are distinct, each
declared name occurs exactly once among them.  The total number of offset
slots may exceed the number of arguments by the placeholder padding. -/
theorem c3_nonplaceholder_offsets (g : Graph) (res : List Entry) (n : String)
    (offs ps : List String) (hres : bestOrder g = some res)
    (he : (n, some offs) ∈ res) (hg : dget n g = some (some ps))
    (hu : "_" ∉ ps) (hps : ps.Nodup) :
    (offs.filter (fun s => decide (¬ s = "_"))).Perm ps ∧
    (offs.filter (fun s => decide (¬ s = "_"))).length = ps.length ∧
    ∀ q ∈ ps, (offs.filter (fun s => decide (¬ s = "_"))).count q = 1 := by
  have hperm := bestOrder_entry_offsets hres he hg hu
  refine ⟨hperm, hperm.length_eq, ?_⟩
  intro q hq
  rw [hperm.count_eq]
  exact List.count_eq_one_of_mem hps hq

theorem c3_nonplaceholder_offsets_witness :
    ((["g", "_", "h"] : List String).filter
        (fun s => decide (¬ s = "_"))).Perm ["g", "h"] ∧
    ((["g", "_", "h"] : List String).filter
        (fun s => decide (¬ s = "_"))).length = (["g", "h"] : List String).length ∧
    ∀ q ∈ (["g", "h"] : List String),
      ((["g", "_", "h"] : List String).filter
        (fun s => decide (¬ s = "_"))).count q = 1 :=
  c3_nonplaceholder_offsets cexPad
    [("f", some []), ("h", some ["f"]), ("e", some []), ("g", some ["e"]),
      ("c", some ["g", "_", "h"])]
    "c" ["g", "_", "h"] ["g", "h"] rfl (by decide) rfl (by decide) (by decide)

/-- C4: resolution is a pure function of the input collection, so resolving
twice yields identical output; and both sorts impose the documented
tie-break policy: the subsequence of elements carrying any fixed key value
is exactly their original subsequence, both for the depth-descending global
visitation order and for the ascending parent visitation order (stable
sorting with current depths, visited nodes counting as `-1`). -/
theorem c4_deterministic_and_stable (g : Graph) (nodes pnodes : List Node)
    (vis : List String) (d : Int) :
    bestOrder g = bestOrder g ∧
    (pySortedDesc (fun v => v.depth) nodes).filter
        (fun v => decide (v.depth = d)) =
      nodes.filter (fun v => decide (v.depth = d)) ∧
    (pySorted (curDepth vis) pnodes).filter
        (fun v => decide (curDepth vis v = d)) =
      pnodes.filter (fun v => decide (curDepth vis v = d)) :=
  ⟨rfl, filter_pySortedDesc (fun v => v.depth) d nodes,
    filter_pySorted (curDepth vis) d pnodes⟩

/-- C5 counterexample: for a record-like structure the flatten boundary uses
`getattr` without a default, so a record whose fields are a strict subset of
the resolved names makes `flatten` raise instead of producing a tuple, and
the claimed round trip never happens. -/
theorem c5_record_missing_field_cex :
    (["a"] : List String) ⊆ ["a", "b"] ∧
    (flatten ["a", "b"] (some (PyStruct.strct [("a", (0 : Nat))]))).map
      (unflatten ["a", "b"]) = none :=
  ⟨by decide, rfl⟩

/-- C5 amended: the round trip `unflatten (flatten x)` preserves the value
at every resolved name for mapping-like structures whose keys are a subset
of the resolved names (absent keys read back as `None`), and for record-like
structures only when every resolved name is present among the fields. -/
theorem c5_roundtrip {V : Type} (names : List String)
    (x f : List (String × V)) (n : String) (hn : n ∈ names)
    (_hsub : x.map Prod.fst ⊆ names)
    (hfull : ∀ m ∈ names, m ∈ f.map Prod.fst) :
    (∃ slots, flatten names (some (PyStruct.map x)) = some slots ∧
      dget n (unflatten names slots) = some (dget n x)) ∧
    (∃ slots, flatten names (some (PyStruct.strct f)) = some slots ∧
      dget n (unflatten names slots) = some (dget n f)) := by
  constructor
  · refine ⟨names.map (fun m => dget m x), rfl, ?_⟩
    unfold unflatten
    exact dget_zip_map (fun m => dget m x) hn
  · refine ⟨names.map (fun m => dget m f), flatten_strct_of_full hfull, ?_⟩
    unfold unflatten
    exact dget_zip_map (fun m => dget m f) hn

theorem c5_roundtrip_witness :
    (∃ slots, flatten ["a", "b"] (some (PyStruct.map [("a", (0 : Nat))])) =
        some slots ∧
      dget "a" (unflatten ["a", "b"] slots) =
        some (dget "a" [("a", (0 : Nat))])) ∧
    (∃ slots, flatten ["a", "b"]
        (some (PyStruct.strct [("a", (1 : Nat)), ("b", 2)])) = some slots ∧
      dget "a" (unflatten ["a", "b"] slots) =
        some (dget "a" [("a", (1 : Nat)), ("b", 2)])) :=
  c5_roundtrip ["a", "b"] [("a", 0)] [("a", 1), ("b", 2)] "a"
    (by decide) (by decide) (by decide)

/-- C6: a dependency name absent from the collection makes resolution fail
at construction time, before any invocation wrapper is produced: the depth
pass reads `annotated_graph[u]` for every declared parent, so the missing
name raises there (`KeyError`, modelled as `none`), and
`_prob_chain_rule_flatten` propagates the failure. -/
theorem c6_missing_dependency_fails {M : Type} (argsOf : M → DepSpec)
    (namedMakers : List (String × M)) (k p : String) (ps : List String)
    (hnd : (namedMakers.map Prod.fst).Nodup)
    (hk : (k, some ps) ∈ extractGraph argsOf namedMakers)
    (hp : p ∈ ps) (habs : p ∉ namedMakers.map Prod.fst) :
    probChainRuleFlatten argsOf namedMakers = none := by
  have hkeys := extractGraph_keys argsOf namedMakers
  have hnd' : ((extractGraph argsOf namedMakers).map Prod.fst).Nodup := by
    rw [hkeys]
    exact hnd
  have habs' : p ∉ (extractGraph argsOf namedMakers).map Prod.fst := by
    rw [hkeys]
    exact habs
  have hda := depthAnnotate_none_of_missing hnd' hk hp habs'
  simp [probChainRuleFlatten, bestOrder, hda]

theorem c6_missing_dependency_fails_witness :
    probChainRuleFlatten (fun v : DepSpec => v) [("x", some ["ghost"])] = none :=
  c6_missing_dependency_fails (fun v : DepSpec => v) [("x", some ["ghost"])]
    "x" "ghost" ["ghost"] (by decide) (by decide) (by decide) (by decide)

/-- C7 counterexample: for a record-like structure an absent field is not
turned into `None`: `getattr` raises (`flatten` fails), violating the
claimed permissive behaviour for record-like inputs. -/
theorem c7_record_absent_field_cex :
    "a" ∈ (["a"] : List String) ∧
    ([] : List (String × Nat)).map Prod.fst = [] ∧
    flatten ["a"] (some (PyStruct.strct ([] : List (String × Nat)))) = none :=
  ⟨by decide, rfl, rfl⟩

/-- C7 amended: the permissive behaviour holds for `None` and for
mapping-like inputs: `flatten None` is a tuple of `None`s of the resolved
length, and a mapping lacking a resolved name gets `None` in the
corresponding slot with no failure; a record-like input lacking a resolved
field fails instead. -/
theorem c7_flatten_permissive {V : Type} (names : List String)
    (x : List (String × V)) (n : String) (hn : n ∈ names)
    (habs : n ∉ x.map Prod.fst) :
    flatten names (none : Option (PyStruct V)) =
      some (List.replicate names.length none) ∧
    ∃ slots, flatten names (some (PyStruct.map x)) = some slots ∧
      slots.length = names.length ∧
      dget n (unflatten names slots) = some none := by
  refine ⟨rfl, names.map (fun m => dget m x), rfl, by simp, ?_⟩
  unfold unflatten
  rw [dget_zip_map (fun m => dget m x) hn, dget_eq_none habs]

theorem c7_flatten_permissive_witness :
    flatten ["a", "b"] (none : Option (PyStruct Nat)) =
      some (List.replicate (["a", "b"] : List String).length none) ∧
    ∃ slots, flatten ["a", "b"] (some (PyStruct.map [("b", (3 : Nat))])) =
        some slots ∧
      slots.length = (["a", "b"] : List String).length ∧
      dget "a" (unflatten ["a", "b"] slots) = some none :=
  c7_flatten_permissive ["a", "b"] [("b", 3)] "a" (by decide) (by decide)

/-- C8: on every acyclic collection (topological witness over distinct keys)
the depth pass succeeds and assigns each node a non-negative depth: `0` when
the dependency declaration is `None` or the empty tuple, and
`1 + max([-1] + [depths of the declared parents])` otherwise, where the
parents' depths are the ones assigned to their own nodes. -/
theorem c8_depth_recurrence {g : Graph} {order : List String}
    (hnd : (g.map Prod.fst).Nodup) (htopo : TopoOrder g order) :
    ∃ nodes, depthAnnotate g = some nodes ∧ ∀ u ∈ nodes,
      0 ≤ u.depth ∧
      (u.parents = none → u.depth = 0) ∧
      (u.parents = some [] → u.depth = 0) ∧
      (∀ p ps, u.parents = some (p :: ps) →
        ∃ pds, omapM (fun q => (nfind q nodes).map Node.depth) (p :: ps) =
            some pds ∧ u.depth = 1 + pds.foldl max (-1)) := by
  obtain ⟨nodes, ha⟩ := depthAnnotate_isSome_of_topo htopo
  refine ⟨nodes, ha, ?_⟩
  intro u hu
  obtain ⟨kv, hkv, hname, hpar, hdep⟩ :=
    forall₂_mem_right (depthAnnotate_forall₂ ha) u hu
  obtain ⟨l, hl⟩ : ∃ l, g.length = l + 1 := by
    cases g with
    | nil => simp at hkv
    | cons kv0 rest => exact ⟨rest.length, rfl⟩
  refine ⟨depthExplore_nonneg hdep, ?_, ?_, ?_⟩
  · intro h0
    rw [hl] at hdep
    simp only [depthExplore] at hdep
    rw [dget_of_mem_nodup hnd hkv, ← hpar, h0] at hdep
    dsimp only [] at hdep
    exact (Option.some.inj hdep).symm
  · intro h0
    rw [hl] at hdep
    simp only [depthExplore] at hdep
    rw [dget_of_mem_nodup hnd hkv, ← hpar, h0] at hdep
    dsimp only [] at hdep
    exact (Option.some.inj hdep).symm
  · intro p ps hcons
    rw [hl] at hdep
    simp only [depthExplore] at hdep
    rw [dget_of_mem_nodup hnd hkv, ← hpar, hcons] at hdep
    dsimp only [] at hdep
    cases hm : omapM (depthExplore g l) (p :: ps) with
    | none => rw [hm] at hdep; simp at hdep
    | some ds =>
      rw [hm] at hdep
      simp only [Option.map_some', Option.some.injEq] at hdep
      refine ⟨ds, ?_, hdep.symm⟩
      refine omapM_of_pointwise ?_ hm
      intro q dq hq
      have hqk : q ∈ g.map Prod.fst := key_mem_of_depthExplore_some hq
      have hqn : q ∈ nnames nodes := by
        rw [depthAnnotate_names ha]
        exact hqk
      obtain ⟨w, hw⟩ := Option.isSome_iff_exists.mp (nfind_isSome_of_mem hqn)
      obtain ⟨_, hwd⟩ := nfind_of_annotate ha hw
      have hgq : depthExplore g g.length q = some dq :=
        depthExplore_mono (by omega) hq
      have hwq : w.depth = dq := by
        rw [hwd] at hgq
        exact Option.some.inj hgq
      rw [hw]
      simp [hwq]

theorem c8_depth_recurrence_witness :
    ∃ nodes, depthAnnotate exGraph = some nodes ∧ ∀ u ∈ nodes,
      0 ≤ u.depth ∧
      (u.parents = none → u.depth = 0) ∧
      (u.parents = some [] → u.depth = 0) ∧
      (∀ p ps, u.parents = some (p :: ps) →
        ∃ pds, omapM (fun q => (nfind q nodes).map Node.depth) (p :: ps) =
            some pds ∧ u.depth = 1 + pds.foldl max (-1)) :=
  @c8_depth_recurrence exGraph ["e", "n", "g", "m", "x"] (by decide) (by decide)

/-- C9 counterexample: on the empty collection the resolver returns the
empty tuple, and `zip(*g)` in `_prob_chain_rule_flatten` then fails to
unpack into the four output tuples (`ValueError`), so the four index-aligned
tuples are not produced even though the empty collection is acyclic. -/
theorem c9_empty_model_cex :
    bestOrder ([] : Graph) = some [] ∧
    probChainRuleFlatten (fun v : DepSpec => v)
      ([] : List (String × DepSpec)) = none :=
  ⟨rfl, rfl⟩

/-- C9 amended: for every acyclic collection with distinct keys the resolved
name sequence is a permutation of the keys (each key emitted exactly once);
for nonempty collections `_prob_chain_rule_flatten` additionally returns the
four index-aligned tuples, each of length equal to the number of entries. -/
theorem c9_resolved_perm {M : Type} (argsOf : M → DepSpec)
    (namedMakers : List (String × M)) (order : List String)
    (hnd : (namedMakers.map Prod.fst).Nodup)
    (htopo : TopoOrder (extractGraph argsOf namedMakers) order) :
    (∃ res, bestOrder (extractGraph argsOf namedMakers) = some res ∧
      (res.map Prod.fst).Perm (namedMakers.map Prod.fst)) ∧
    (namedMakers ≠ [] →
      ∃ fn wr ar names, probChainRuleFlatten argsOf namedMakers =
          some (fn, wr, ar, names) ∧
        names.Perm (namedMakers.map Prod.fst) ∧
        fn.length = namedMakers.length ∧ wr.length = namedMakers.length ∧
        ar.length = namedMakers.length ∧
        names.length = namedMakers.length) := by
  have hkeys := extractGraph_keys argsOf namedMakers
  have hnd' : ((extractGraph argsOf namedMakers).map Prod.fst).Nodup := by
    rw [hkeys]
    exact hnd
  obtain ⟨res, hbo, hperm⟩ := bestOrder_of_topo hnd' htopo
  rw [hkeys] at hperm
  refine ⟨⟨res, hbo, hperm⟩, ?_⟩
  intro hne
  have hres_len : res.length = namedMakers.length := by
    have h1 := hperm.length_eq
    simpa using h1
  have hres_ne : ¬ res = [] := by
    intro h0
    subst h0
    cases namedMakers with
    | nil => exact absurd rfl hne
    | cons kv rest => simp at hres_len
  have hW : ∀ e ∈ res,
      ((dget e.1 namedMakers).map (fun m => make m e.2)).isSome := by
    intro e he
    have h1 : e.1 ∈ res.map Prod.fst := List.mem_map.mpr ⟨e, he, rfl⟩
    obtain ⟨m, hm⟩ := Option.isSome_iff_exists.mp
      (dget_isSome_of_key_mem (hperm.mem_iff.mp h1))
    simp [hm]
  obtain ⟨wrapped, hwrapped⟩ := omapM_isSome hW
  refine ⟨res.map (fun e => dget e.1 namedMakers), wrapped,
    res.map (fun e => e.2), res.map (fun e => e.1), ?_, ?_, ?_, ?_, ?_, ?_⟩
  · simp [probChainRuleFlatten, hbo, hres_ne, hwrapped]
  · exact hperm
  · simp [hres_len]
  · rw [omapM_length hwrapped, hres_len]
  · simp [hres_len]
  · simp [hres_len]

theorem c9_resolved_perm_witness :
    (∃ res, bestOrder (extractGraph (fun v : DepSpec => v)
        [("e", none), ("g", some ["e"])]) = some res ∧
      (res.map Prod.fst).Perm
        (([("e", none), ("g", some ["e"])] : List (String × DepSpec)).map
          Prod.fst)) ∧
    (([("e", none), ("g", some ["e"])] : List (String × DepSpec)) ≠ [] →
      ∃ fn wr ar names, probChainRuleFlatten (fun v : DepSpec => v)
          [("e", none), ("g", some ["e"])] = some (fn, wr, ar, names) ∧
        names.Perm
          (([("e", none), ("g", some ["e"])] : List (String × DepSpec)).map
            Prod.fst) ∧
        fn.length = ([("e", none), ("g", some ["e"])] :
          List (String × DepSpec)).length ∧
        wr.length = ([("e", none), ("g", some ["e"])] :
          List (String × DepSpec)).length ∧
        ar.length = ([("e", none), ("g", some ["e"])] :
          List (String × DepSpec)).length ∧
        names.length = ([("e", none), ("g", some ["e"])] :
          List (String × DepSpec)).length) :=
  c9_resolved_perm (fun v : DepSpec => v) [("e", none), ("g", some ["e"])]
    ["e", "g"] (by decide) (by decide)

/-- C10: the placeholder marker shares the namespace of argument names: the
keyword mapping built by the wrapped closure pops the key `'_'` after
zipping the offsets against the reversed trailing window, so a producer that
declares an argument literally named `'_'` is never passed a value for it. -/
theorem c10_placeholder_removed {M V : Type} (m : M) (args : List String)
    (xs : List V) (hargs : "_" ∈ args) :
    "_" ∉ (makeKwargs args xs).map Prod.fst ∧
    ∀ kw, invoke (make m (some args)) xs = Invocation.called m kw →
      "_" ∉ kw.map Prod.fst := by
  refine ⟨underscore_not_in_makeKwargs args xs, ?_⟩
  intro kw hkw
  cases args with
  | nil => simp at hargs
  | cons a rest =>
    simp only [make, invoke, Invocation.called.injEq] at hkw
    rw [← hkw.2]
    exact underscore_not_in_makeKwargs (a :: rest) xs

theorem c10_placeholder_removed_witness :
    "_" ∉ (makeKwargs ["_", "loc"] [(1 : Nat), 2]).map Prod.fst ∧
    ∀ kw, invoke (make "m" (some ["_", "loc"])) [(1 : Nat), 2] =
        Invocation.called "m" kw → "_" ∉ kw.map Prod.fst :=
  c10_placeholder_removed "m" ["_", "loc"] [1, 2] (by decide)

end JDN
